import Mathlib

/-!
Shallow embedding of the calimporter repository's core (events.go,
calimporter.go, calendar.go).  Go strings are modelled as `List Char`,
`time.Time` instants as `Int` (with `Equal` as `=` and `Before` as `<`),
and the Go map `map[string]*Event` as an association list whose insert
overwrites the binding in place.  The Go struct field names `prefix` and
`suffix` of `description` are rendered as `pre` and `suf`.
-/

namespace Calimporter

/-- Embedding of the constant `delim` from events.go, a line of 20 equal
signs. -/
def delim : List Char := "====================".toList

/-- Embedding of Go `strings.SplitN(s, delim, 2)`: splits `s` at the first
occurrence of `delim`, returning the parts before and after it, or `none`
when `delim` does not occur in `s` (the one-token case). -/
def splitN2 : List Char → Option (List Char × List Char)
  | [] => none
  | c :: rest =>
    if delim.isPrefixOf (c :: rest) then
      some ([], (c :: rest).drop delim.length)
    else
      (splitN2 rest).map (fun p => (c :: p.1, p.2))

/-- Embedding of the `description` struct of events.go: `pre` is the Go
field `prefix` (the human annotation part), `suf` is the Go field
`suffix` (the managed part). -/
structure description where
  pre : List Char
  suf : List Char
deriving DecidableEq, Repr

/-- Embedding of `parseDescription` from events.go. -/
def parseDescription (s : List Char) : description :=
  match splitN2 s with
  | some (t0, t1) =>
    let p := if t0.getLast? = some '\n' then t0.dropLast else t0
    let q := if t1.head? = some '\n' then t1.tail else t1
    { pre := p, suf := q }
  | none => { pre := [], suf := s }

/-- Embedding of the `String` method on `description` in events.go. -/
def description.String (d : description) : List Char :=
  if d.pre = [] then delim ++ '\n' :: d.suf
  else d.pre ++ '\n' :: (delim ++ '\n' :: d.suf)

/-- Embedding of the `Event` struct of events.go.  `calEventID` is the
remote-store identity (only set for events read from google calendar). -/
structure Event where
  Title : List Char
  Start : Int
  End : Int
  Where : List Char
  Description : List Char
  SrcID : List Char
  calEventID : List Char
deriving DecidableEq, Repr

/-- Embedding of `(*Event).exportedDescription` from events.go: parse the
description and re-serialize it, which prepends the delimiter when it is
missing. -/
def Event.exportedDescription (ev : Event) : List Char :=
  (parseDescription ev.Description).String

/-- Embedding of `(*Event).equal` from events.go. -/
def Event.equal (ev other : Event) : Bool :=
  if ev.Title ≠ other.Title then false
  else if ev.Start ≠ other.Start then false
  else if ev.End ≠ other.End then false
  else if ev.Where ≠ other.Where then false
  else if (parseDescription ev.Description).suf ≠ (parseDescription other.Description).suf then false
  else if ev.SrcID ≠ other.SrcID then false
  else true

/-- Embedding of `(*Event).newUpdate` from events.go: a new event carrying
`srcEv`'s fields, `ev`'s remote id, and a description whose annotation
part comes from `ev` and whose managed part is `srcEv.Description`. -/
def Event.newUpdate (ev srcEv : Event) : Event :=
  let calDescription := parseDescription ev.Description
  let updateDescription : description :=
    { pre := calDescription.pre, suf := srcEv.Description }
  { srcEv with
      calEventID := ev.calEventID
      Description := updateDescription.String }

/-- Embedding of the `Changes` struct of calimporter.go. -/
structure Changes where
  Deletes : List Event
  Updates : List Event
  Adds : List Event
deriving DecidableEq, Repr

/-- The Go map `map[string]*Event` keyed by `SrcID`, modelled as an
association list with at most one binding per key. -/
abbrev SrcMap := List (List Char × Event)

/-- Go map assignment `m[k] = v`: overwrite the binding in place when the
key is present, otherwise add a new binding. -/
def mapInsert : SrcMap → List Char → Event → SrcMap
  | [], k, v => [(k, v)]
  | (k', v') :: rest, k, v =>
    if k' = k then (k, v) :: rest else (k', v') :: mapInsert rest k v

/-- Go map read `m[k]`. -/
def mapLookup : SrcMap → List Char → Option Event
  | [], _ => none
  | (k', v') :: rest, k => if k' = k then some v' else mapLookup rest k

/-- Go `delete(m, k)`. -/
def mapErase : SrcMap → List Char → SrcMap
  | [], _ => []
  | (k', v') :: rest, k =>
    if k' = k then mapErase rest k else (k', v') :: mapErase rest k

/-- The first loop of `getOperations` in calimporter.go: fold the desired
events into the `srcMap`, skipping events whose end is before `now`. -/
def buildSrcMap0 (now : Int) : SrcMap → List Event → SrcMap
  | m, [] => m
  | m, ev :: rest =>
    if ev.End < now then buildSrcMap0 now m rest
    else buildSrcMap0 now (mapInsert m ev.SrcID ev) rest

/-- The `srcMap` of `getOperations`, built from the empty map. -/
def buildSrcMap (now : Int) (srcEvents : List Event) : SrcMap :=
  buildSrcMap0 now [] srcEvents

/-- The second loop of `getOperations` in calimporter.go, iterated over
the remote (calendar) events: returns the deletes, the updates and the
remaining map (whose values become the adds). -/
def processCal : SrcMap → List Event → List Event × List Event × SrcMap
  | m, [] => ([], [], m)
  | m, calEv :: rest =>
    match mapLookup m calEv.SrcID with
    | some srcEv =>
      let r := processCal (mapErase m calEv.SrcID) rest
      if srcEv.equal calEv then r
      else (r.1, calEv.newUpdate srcEv :: r.2.1, r.2.2)
    | none =>
      let r := processCal m rest
      (calEv :: r.1, r.2.1, r.2.2)

/-- Embedding of `getOperations` from calimporter.go. -/
def getOperations (now : Int) (calEvents srcEvents : List Event) : Changes :=
  let m := buildSrcMap now srcEvents
  let r := processCal m calEvents
  { Deletes := r.1, Updates := r.2.1, Adds := (r.2.2).map Prod.snd }

/-- Instrumented form of the second loop of `getOperations`: identical
control flow, but it also records the matched pairs.  `dels` are the
deletes, `upds` the (remote, desired) pairs that produced an update,
`same` the matched pairs that compared equal (no operation emitted), and
`rem` the remaining map. -/
structure LoopOut where
  dels : List Event
  upds : List (Event × Event)
  same : List (Event × Event)
  rem : SrcMap
deriving DecidableEq, Repr

/-- Instrumented second loop; `processCal` is its projection. -/
def processCalFull : SrcMap → List Event → LoopOut
  | m, [] => ⟨[], [], [], m⟩
  | m, calEv :: rest =>
    match mapLookup m calEv.SrcID with
    | some srcEv =>
      let r := processCalFull (mapErase m calEv.SrcID) rest
      if srcEv.equal calEv then { r with same := (calEv, srcEv) :: r.same }
      else { r with upds := (calEv, srcEv) :: r.upds }
    | none =>
      let r := processCalFull m rest
      { r with dels := calEv :: r.dels }

/-- Embedding of the fields of the wire event built by `makeCalEvent` in
calendar.go (time formatting kept as the instant itself). -/
structure CalApiEvent where
  Summary : List Char
  Location : List Char
  Description : List Char
  Start : Int
  End : Int
  PrivateProps : List (List Char × List Char)
deriving DecidableEq, Repr

/-- Embedding of `(cal).makeCalEvent` from calendar.go, used by both the
add and the update write paths. -/
def makeCalEvent (privateKey : List Char) (ev : Event) : CalApiEvent :=
  { Summary := ev.Title
    Location := ev.Where
    Description := ev.exportedDescription
    Start := ev.Start
    End := ev.End
    PrivateProps :=
      [(privateKey, "True".toList), (privateKey ++ "ID".toList, ev.SrcID)] }

/-- The survival test of the first loop of `getOperations`: a desired
event is kept iff its end is not before `now` (the negation of the Go
guard `ev.End.Before(now)`). -/
def keep (now : Int) (ev : Event) : Bool := !(decide (ev.End < now))

/-- Well-formedness of a `SrcMap`: keys are distinct and each binding's
value carries its key as its `SrcID`.  `buildSrcMap` establishes this and
the reconciliation loop preserves it. -/
def mapOK (m : SrcMap) : Prop :=
  (m.map Prod.fst).Nodup ∧ ∀ p ∈ m, p.2.SrcID = p.1

/-! Basic facts about the delimiter. -/

theorem delim_eq : delim = List.replicate 20 '=' := by decide

theorem delim_ne_nil : delim ≠ [] := by decide

theorem newline_not_mem_delim : '\n' ∉ delim := by decide

theorem isPrefixOf_iff {l1 l2 : List Char} :
    l1.isPrefixOf l2 = true ↔ l1 <+: l2 :=
  List.isPrefixOf_iff_prefix

theorem dropLast_isPre (l : List Char) : l.dropLast <+: l :=
  List.dropLast_prefix l

/-! Lemmas about `splitN2`. -/

theorem splitN2_of_isPrefixOf {s : List Char} (h : delim.isPrefixOf s = true) :
    splitN2 s = some ([], s.drop delim.length) := by
  cases s with
  | nil =>
    exact absurd (isPrefixOf_iff.mp h)
      (by simp [List.prefix_nil, delim_ne_nil])
  | cons c rest => simp [splitN2, h]

theorem splitN2_cons_of_not_isPrefixOf {c : Char} {rest : List Char}
    (h : ¬ delim.isPrefixOf (c :: rest) = true) :
    splitN2 (c :: rest) = (splitN2 rest).map (fun p => (c :: p.1, p.2)) := by
  simp [splitN2, h]

theorem splitN2_eq_none_iff (s : List Char) :
    splitN2 s = none ↔ ¬ delim <:+: s := by
  induction s with
  | nil =>
    constructor
    · intro _ h
      exact delim_ne_nil (List.infix_nil.mp h)
    · intro _
      rfl
  | cons c rest ih =>
    by_cases h : delim.isPrefixOf (c :: rest) = true
    · rw [splitN2_of_isPrefixOf h]
      constructor
      · intro hn
        exact absurd hn (by simp)
      · intro hn
        exact absurd ((isPrefixOf_iff.mp h).isInfix) hn
    · rw [splitN2_cons_of_not_isPrefixOf h, List.infix_cons_iff]
      constructor
      · intro hn hor
        rcases hor with hp | hi
        · exact h (isPrefixOf_iff.mpr hp)
        · exact (ih.mp (by simpa using hn)) hi
      · intro hn
        have h0 : splitN2 rest = none := ih.mpr (fun hi => hn (Or.inr hi))
        simp [h0]

theorem splitN2_some_spec {s t0 t1 : List Char}
    (h : splitN2 s = some (t0, t1)) :
    s = t0 ++ delim ++ t1 ∧ ¬ delim <:+: t0 := by
  induction s generalizing t0 t1 with
  | nil => exact absurd h (by intro hh; exact Option.noConfusion hh)
  | cons c rest ih =>
    by_cases hp : delim.isPrefixOf (c :: rest) = true
    · rw [splitN2_of_isPrefixOf hp] at h
      obtain ⟨u, hu⟩ := isPrefixOf_iff.mp hp
      injection h with h1
      injection h1 with h2 h3
      subst h2
      refine ⟨?_, fun hinf => delim_ne_nil (List.infix_nil.mp hinf)⟩
      rw [← h3, ← hu, List.drop_left]
      simp
    · rw [splitN2_cons_of_not_isPrefixOf hp] at h
      cases hr : splitN2 rest with
      | none => rw [hr] at h; exact absurd h (by intro hh; exact Option.noConfusion hh)
      | some p =>
        rw [hr] at h
        simp only [Option.map_some', Option.some.injEq] at h
        have hr2 : splitN2 rest = some (p.1, p.2) := by rw [hr]
        obtain ⟨hs, hnd⟩ := ih hr2
        injection h with h1 h2
        subst h1
        subst h2
        refine ⟨by simp [hs], ?_⟩
        intro hinf
        rcases List.infix_cons_iff.mp hinf with hpre | hinf'
        · apply hp
          apply isPrefixOf_iff.mpr
          calc delim <+: c :: p.1 := hpre
            _ <+: c :: rest := by
                rw [List.cons_prefix_cons]
                exact ⟨rfl, hs ▸ ⟨delim ++ p.2, by simp⟩⟩
        · exact hnd hinf'

theorem infix_append_singleton {l a : List Char} {c : Char}
    (h : l <:+: (a ++ [c])) (hc : c ∉ l) : l <:+: a := by
  rw [← List.reverse_infix] at h ⊢
  rw [List.reverse_append] at h
  simp only [List.reverse_cons, List.reverse_nil, List.nil_append,
    List.singleton_append] at h
  rcases List.infix_cons_iff.mp h with hpre | hinf
  · cases hl : l.reverse with
    | nil =>
      rw [List.reverse_eq_nil_iff] at hl
      subst hl
      exact List.nil_infix
    | cons x xs =>
      rw [hl] at hpre
      obtain ⟨hx, _⟩ := List.cons_prefix_cons.mp hpre
      exfalso
      apply hc
      rw [← hx]
      have : x ∈ l.reverse := by rw [hl]; exact List.mem_cons_self _ _
      exact List.mem_reverse.mp this
  · exact hinf

theorem no_delim_infix_snoc_newline {a : List Char} (h : ¬ delim <:+: a) :
    ¬ delim <:+: (a ++ ['\n']) := fun hinf =>
  h (infix_append_singleton hinf newline_not_mem_delim)

theorem splitN2_append (a t : List Char) (h : ¬ delim <:+: (a ++ ['\n'])) :
    splitN2 (a ++ '\n' :: delim ++ t) = some (a ++ ['\n'], t) := by
  induction a with
  | nil =>
    have hnp : ¬ delim.isPrefixOf ('\n' :: (delim ++ t)) = true := by
      intro hp
      have hpre := isPrefixOf_iff.mp hp
      have hidx : 0 < delim.length := by
        cases hd : delim with
        | nil => exact absurd hd delim_ne_nil
        | cons d ds => simp [hd]
      have hget := hpre.getElem (n := 0) hidx
      rw [List.getElem_cons_zero] at hget
      apply newline_not_mem_delim
      rw [← hget]
      exact List.getElem_mem _
    show splitN2 ('\n' :: (delim ++ t)) = some (['\n'], t)
    rw [splitN2_cons_of_not_isPrefixOf hnp]
    rw [splitN2_of_isPrefixOf
      (isPrefixOf_iff.mpr (List.prefix_append delim t))]
    rw [List.drop_left]
    rfl
  | cons c a' ih =>
    have hstep : ¬ delim <:+: (a' ++ ['\n']) := by
      intro hinf
      exact h (List.infix_cons hinf)
    have hnp : ¬ delim.isPrefixOf (c :: (a' ++ '\n' :: delim ++ t)) = true := by
      intro hp
      have hpre := isPrefixOf_iff.mp hp
      have harr : (c :: (a' ++ '\n' :: delim ++ t)) =
          ((c :: a') ++ ['\n']) ++ (delim ++ t) := by simp
      by_cases hlen : delim.length ≤ ((c :: a') ++ ['\n']).length
      · apply h
        apply List.IsPrefix.isInfix
        exact List.prefix_of_prefix_length_le (harr ▸ hpre)
          (List.prefix_append _ _) hlen
      · push_neg at hlen
        have hidx : (c :: a').length < delim.length := by
          have hx : ((c :: a') ++ ['\n']).length = (c :: a').length + 1 := by simp
          omega
        have hq1 : (c :: (a' ++ '\n' :: delim ++ t))[(c :: a').length]? =
            some '\n' := by
          rw [show (c :: (a' ++ '\n' :: delim ++ t)) =
              ((c :: a') ++ '\n' :: (delim ++ t)) by simp]
          rw [List.getElem?_append]
          simp
        have hq2 : (c :: (a' ++ '\n' :: delim ++ t))[(c :: a').length]? =
            delim[(c :: a').length]? := by
          obtain ⟨u, hu⟩ := hpre
          rw [← hu, List.getElem?_append]
          rw [if_pos hidx]
        apply newline_not_mem_delim
        have hd9 : delim[(c :: a').length]? = some '\n' := by
          rw [← hq2, hq1]
        exact List.getElem?_mem hd9
    show splitN2 (c :: (a' ++ '\n' :: delim ++ t)) =
      some ((c :: a') ++ ['\n'], t)
    rw [splitN2_cons_of_not_isPrefixOf hnp, ih hstep]
    rfl

/-! Lemmas about `parseDescription` and `description.String`. -/

theorem parse_of_no_delim {s : List Char} (h : ¬ delim <:+: s) :
    parseDescription s = { pre := [], suf := s } := by
  have h0 : splitN2 s = none := (splitN2_eq_none_iff s).mpr h
  simp [parseDescription, h0]

theorem parse_string (a m : List Char) (h : ¬ delim <:+: a) :
    parseDescription (description.String { pre := a, suf := m }) =
      { pre := a, suf := m } := by
  by_cases ha : a = []
  · subst ha
    have hs : description.String { pre := [], suf := m } = delim ++ '\n' :: m := by
      simp [description.String]
    rw [hs]
    have h1 : splitN2 (delim ++ '\n' :: m) = some ([], '\n' :: m) := by
      rw [splitN2_of_isPrefixOf
        (isPrefixOf_iff.mpr (List.prefix_append delim ('\n' :: m)))]
      rw [List.drop_left]
    simp [parseDescription, h1]
  · have hs : description.String { pre := a, suf := m } =
        a ++ '\n' :: delim ++ '\n' :: m := by
      simp [description.String, ha]
    rw [hs]
    have h1 := splitN2_append a ('\n' :: m) (no_delim_infix_snoc_newline h)
    unfold parseDescription
    rw [h1]
    simp

theorem parse_pre_no_delim (s : List Char) :
    ¬ delim <:+: (parseDescription s).pre := by
  cases h : splitN2 s with
  | none =>
    have : (parseDescription s).pre = [] := by simp [parseDescription, h]
    rw [this]
    intro hinf
    exact delim_ne_nil (List.infix_nil.mp hinf)
  | some p =>
    have h2 : splitN2 s = some (p.1, p.2) := by rw [h]
    obtain ⟨hs, hnd⟩ := splitN2_some_spec h2
    intro hinf
    apply hnd
    have hpre : (parseDescription s).pre =
        if p.1.getLast? = some '\n' then p.1.dropLast else p.1 := by
      simp [parseDescription, h]
    rw [hpre] at hinf
    by_cases hl : p.1.getLast? = some '\n'
    · rw [if_pos hl] at hinf
      exact hinf.trans (dropLast_isPre p.1).isInfix
    · rwa [if_neg hl] at hinf

theorem parse_string_parse (s : List Char) :
    parseDescription ((parseDescription s).String) = parseDescription s :=
  parse_string (parseDescription s).pre (parseDescription s).suf
    (parse_pre_no_delim s)

theorem delim_infix_string (d : description) : delim <:+: d.String := by
  unfold description.String
  by_cases h : d.pre = []
  · rw [if_pos h]
    exact (List.prefix_append delim ('\n' :: d.suf)).isInfix
  · rw [if_neg h]
    exact ⟨d.pre ++ ['\n'], '\n' :: d.suf, by simp⟩

/-! Lemmas about the association-list model of the Go map. -/

theorem keep_eq_true {now : Int} {ev : Event} :
    keep now ev = true ↔ ¬ ev.End < now := by
  simp [keep]

theorem mapLookup_insert_self (m : SrcMap) (k : List Char) (v : Event) :
    mapLookup (mapInsert m k v) k = some v := by
  induction m with
  | nil => simp [mapInsert, mapLookup]
  | cons p rest ih =>
    by_cases h : p.1 = k
    · simp [mapInsert, h, mapLookup]
    · simp [mapInsert, h, mapLookup, ih]

theorem mapLookup_insert_ne (m : SrcMap) {k s : List Char} (v : Event)
    (h : k ≠ s) : mapLookup (mapInsert m k v) s = mapLookup m s := by
  induction m with
  | nil => simp [mapInsert, mapLookup, h]
  | cons p rest ih =>
    by_cases hp : p.1 = k
    · simp [mapInsert, hp, mapLookup, h]
    · simp only [mapInsert, hp, if_false, mapLookup]
      by_cases hs : p.1 = s
      · simp [hs]
      · simp [hs, ih]

theorem mapLookup_erase_self (m : SrcMap) (k : List Char) :
    mapLookup (mapErase m k) k = none := by
  induction m with
  | nil => simp [mapErase, mapLookup]
  | cons p rest ih =>
    by_cases h : p.1 = k
    · simp [mapErase, h, ih]
    · simp [mapErase, h, mapLookup, ih]

theorem mapLookup_erase_ne (m : SrcMap) {k s : List Char}
    (h : k ≠ s) : mapLookup (mapErase m k) s = mapLookup m s := by
  induction m with
  | nil => rfl
  | cons p rest ih =>
    by_cases hp : p.1 = k
    · have hps : ¬ p.1 = s := by rw [hp]; exact h
      rw [mapErase, if_pos hp, ih, mapLookup, if_neg hps]
    · rw [mapErase, if_neg hp, mapLookup, mapLookup, ih]

theorem mapErase_sublist (m : SrcMap) (k : List Char) :
    (mapErase m k).Sublist m := by
  induction m with
  | nil => simp [mapErase]
  | cons p rest ih =>
    by_cases h : p.1 = k
    · simp only [mapErase, h, if_true]
      exact ih.cons p
    · simp only [mapErase, h, if_false]
      exact ih.cons₂ p

theorem mem_mapInsert {m : SrcMap} {k : List Char} {v : Event} {p} :
    p ∈ mapInsert m k v → p ∈ m ∨ p = (k, v) := by
  induction m with
  | nil => simp [mapInsert]
  | cons q rest ih =>
    by_cases h : q.1 = k
    · simp only [mapInsert, h, if_true]
      intro hp
      rcases List.mem_cons.mp hp with h1 | h1
      · exact Or.inr h1
      · exact Or.inl (List.mem_cons_of_mem _ h1)
    · simp only [mapInsert, h, if_false]
      intro hp
      rcases List.mem_cons.mp hp with h1 | h1
      · exact Or.inl (h1 ▸ List.mem_cons_self _ _)
      · rcases ih h1 with h2 | h2
        · exact Or.inl (List.mem_cons_of_mem _ h2)
        · exact Or.inr h2

theorem keys_mapInsert_of_mem {m : SrcMap} {k : List Char} (v : Event)
    (h : k ∈ m.map Prod.fst) :
    (mapInsert m k v).map Prod.fst = m.map Prod.fst := by
  induction m with
  | nil => simp at h
  | cons q rest ih =>
    by_cases hq : q.1 = k
    · simp [mapInsert, hq]
    · simp only [List.map_cons, List.mem_cons] at h
      rcases h with h1 | h1
      · exact absurd h1.symm hq
      · simp [mapInsert, hq, ih h1]

theorem mapInsert_of_not_mem {m : SrcMap} {k : List Char} (v : Event)
    (h : k ∉ m.map Prod.fst) :
    mapInsert m k v = m ++ [(k, v)] := by
  induction m with
  | nil => simp [mapInsert]
  | cons q rest ih =>
    simp only [List.map_cons, List.mem_cons] at h
    push_neg at h
    have hq : ¬ q.1 = k := fun hh => h.1 hh.symm
    simp [mapInsert, hq, ih h.2]

theorem mapOK_insert {m : SrcMap} {k : List Char} {v : Event}
    (h : mapOK m) (hv : v.SrcID = k) : mapOK (mapInsert m k v) := by
  obtain ⟨hnd, hsrc⟩ := h
  constructor
  · by_cases hk : k ∈ m.map Prod.fst
    · rw [keys_mapInsert_of_mem v hk]
      exact hnd
    · rw [mapInsert_of_not_mem v hk, List.map_append]
      apply List.Nodup.append hnd (List.nodup_singleton k)
      intro a ha hb
      simp only [List.map_cons, List.map_nil, List.mem_singleton] at hb
      exact hk (hb ▸ ha)
  · intro p hp
    rcases mem_mapInsert hp with h1 | h1
    · exact hsrc p h1
    · rw [h1]
      exact hv

theorem mapOK_erase {m : SrcMap} (k : List Char) (h : mapOK m) :
    mapOK (mapErase m k) := by
  obtain ⟨hnd, hsrc⟩ := h
  constructor
  · exact ((mapErase_sublist m k).map Prod.fst).nodup hnd
  · intro p hp
    exact hsrc p ((mapErase_sublist m k).mem hp)

theorem mapLookup_isSome_iff (m : SrcMap) (s : List Char) :
    (mapLookup m s).isSome ↔ s ∈ m.map Prod.fst := by
  induction m with
  | nil => simp [mapLookup]
  | cons p rest ih =>
    by_cases h : p.1 = s
    · rw [mapLookup, if_pos h]
      simp only [Option.isSome_some, List.map_cons, true_iff]
      exact List.mem_cons.mpr (Or.inl h.symm)
    · rw [mapLookup, if_neg h]
      rw [ih, List.map_cons, List.mem_cons]
      constructor
      · exact Or.inr
      · intro hor
        rcases hor with h1 | h1
        · exact absurd h1.symm h
        · exact h1

theorem mapLookup_mem {m : SrcMap} {s : List Char} {v : Event}
    (h : mapLookup m s = some v) : (s, v) ∈ m := by
  induction m with
  | nil => exact Option.noConfusion h
  | cons p rest ih =>
    rw [mapLookup] at h
    by_cases hp : p.1 = s
    · rw [if_pos hp] at h
      injection h with h1
      have hpv : p = (s, v) := by
        obtain ⟨pk, pv⟩ := p
        simp only at hp h1
        rw [hp, h1]
      rw [← hpv]
      exact List.mem_cons_self _ _
    · rw [if_neg hp] at h
      exact List.mem_cons_of_mem _ (ih h)

theorem mapLookup_isSome_of_mem {m : SrcMap} {s : List Char} {v : Event}
    (h : (s, v) ∈ m) : (mapLookup m s).isSome := by
  rw [mapLookup_isSome_iff]
  exact List.mem_map.mpr ⟨(s, v), h, rfl⟩

theorem mapErase_of_not_mem {m : SrcMap} {s : List Char}
    (h : s ∉ m.map Prod.fst) : mapErase m s = m := by
  induction m with
  | nil => simp [mapErase]
  | cons p rest ih =>
    simp only [List.map_cons, List.mem_cons] at h
    push_neg at h
    have hp : ¬ p.1 = s := fun hh => h.1 hh.symm
    simp [mapErase, hp, ih h.2]

theorem values_erase {m : SrcMap} {s : List Char} {v : Event}
    (h : mapOK m) (hv : mapLookup m s = some v) :
    (↑(m.map Prod.snd) : Multiset Event) =
      v ::ₘ ↑((mapErase m s).map Prod.snd) := by
  induction m with
  | nil => simp [mapLookup] at hv
  | cons p rest ih =>
    obtain ⟨hnd, hsrc⟩ := h
    by_cases hp : p.1 = s
    · rw [mapLookup] at hv
      simp only [hp, if_true, Option.some.injEq] at hv
      have hrest : mapErase rest s = rest := by
        apply mapErase_of_not_mem
        rw [List.map_cons, List.nodup_cons] at hnd
        rw [← hp]
        exact hnd.1
      simp only [mapErase, hp, if_true, hrest, List.map_cons, hv]
      rw [← Multiset.cons_coe]
    · rw [mapLookup] at hv
      simp only [hp, if_false] at hv
      have hok : mapOK rest := by
        rw [List.map_cons, List.nodup_cons] at hnd
        exact ⟨hnd.2, fun q hq => hsrc q (List.mem_cons_of_mem _ hq)⟩
      have := ih hok hv
      simp only [mapErase, hp, if_false, List.map_cons]
      rw [← Multiset.cons_coe, ← Multiset.cons_coe, this]
      rw [Multiset.cons_swap]

/-! Lemmas about `buildSrcMap`. -/

theorem mapOK_nil : mapOK [] :=
  ⟨List.nodup_nil, fun p hp => absurd hp (List.not_mem_nil p)⟩

theorem buildSrcMap0_mapOK (now : Int) (src : List Event) {m : SrcMap}
    (h : mapOK m) : mapOK (buildSrcMap0 now m src) := by
  induction src generalizing m with
  | nil => exact h
  | cons ev rest ih =>
    rw [buildSrcMap0]
    by_cases he : ev.End < now
    · rw [if_pos he]
      exact ih h
    · rw [if_neg he]
      exact ih (mapOK_insert h rfl)

theorem buildSrcMap_mapOK (now : Int) (src : List Event) :
    mapOK (buildSrcMap now src) :=
  buildSrcMap0_mapOK now src mapOK_nil

theorem mem_buildSrcMap0 {now : Int} {src : List Event} {m : SrcMap} {p}
    (hp : p ∈ buildSrcMap0 now m src) :
    p ∈ m ∨ (p.2 ∈ src ∧ ¬ p.2.End < now ∧ p.2.SrcID = p.1) := by
  induction src generalizing m with
  | nil => exact Or.inl hp
  | cons ev rest ih =>
    rw [buildSrcMap0] at hp
    by_cases he : ev.End < now
    · rw [if_pos he] at hp
      rcases ih hp with h1 | h1
      · exact Or.inl h1
      · exact Or.inr ⟨List.mem_cons_of_mem _ h1.1, h1.2⟩
    · rw [if_neg he] at hp
      rcases ih hp with h1 | h1
      · rcases mem_mapInsert h1 with h2 | h2
        · exact Or.inl h2
        · refine Or.inr ?_
          rw [h2]
          exact ⟨List.mem_cons_self _ _, he, rfl⟩
      · exact Or.inr ⟨List.mem_cons_of_mem _ h1.1, h1.2⟩

theorem buildSrcMap0_lookup_of_absent {now : Int} {s : List Char}
    (src : List Event) (m : SrcMap)
    (h : ∀ e ∈ src, ¬ e.End < now → e.SrcID ≠ s) :
    mapLookup (buildSrcMap0 now m src) s = mapLookup m s := by
  induction src generalizing m with
  | nil => rfl
  | cons ev rest ih =>
    rw [buildSrcMap0]
    by_cases he : ev.End < now
    · rw [if_pos he]
      exact ih _ (fun e hee => h e (List.mem_cons_of_mem _ hee))
    · rw [if_neg he]
      rw [ih _ (fun e hee => h e (List.mem_cons_of_mem _ hee))]
      exact mapLookup_insert_ne m ev (h ev (List.mem_cons_self _ _) he)

theorem mapLookup_insert_isSome (m : SrcMap) (k s : List Char) (v : Event) :
    (mapLookup (mapInsert m k v) s).isSome ↔
      (mapLookup m s).isSome ∨ k = s := by
  by_cases h : k = s
  · subst h
    simp [mapLookup_insert_self]
  · rw [mapLookup_insert_ne m v h]
    simp [h]

theorem buildSrcMap0_lookup_isSome {now : Int} {s : List Char}
    (src : List Event) (m : SrcMap) :
    (mapLookup (buildSrcMap0 now m src) s).isSome ↔
      (mapLookup m s).isSome ∨ ∃ d ∈ src, ¬ d.End < now ∧ d.SrcID = s := by
  induction src generalizing m with
  | nil =>
    rw [buildSrcMap0]
    simp
  | cons ev rest ih =>
    rw [buildSrcMap0]
    by_cases he : ev.End < now
    · rw [if_pos he, ih]
      constructor
      · rintro (h1 | ⟨d, hd, h2⟩)
        · exact Or.inl h1
        · exact Or.inr ⟨d, List.mem_cons_of_mem _ hd, h2⟩
      · rintro (h1 | ⟨d, hd, h2⟩)
        · exact Or.inl h1
        · rcases List.mem_cons.mp hd with rfl | hd'
          · exact absurd he h2.1
          · exact Or.inr ⟨d, hd', h2⟩
    · rw [if_neg he, ih, mapLookup_insert_isSome]
      constructor
      · rintro ((h1 | h1) | ⟨d, hd, h2⟩)
        · exact Or.inl h1
        · exact Or.inr ⟨ev, List.mem_cons_self _ _, he, h1⟩
        · exact Or.inr ⟨d, List.mem_cons_of_mem _ hd, h2⟩
      · rintro (h1 | ⟨d, hd, h2⟩)
        · exact Or.inl (Or.inl h1)
        · rcases List.mem_cons.mp hd with rfl | hd'
          · exact Or.inl (Or.inr h2.2)
          · exact Or.inr ⟨d, hd', h2⟩

theorem buildSrcMap_lookup_isSome {now : Int} {s : List Char}
    (src : List Event) :
    (mapLookup (buildSrcMap now src) s).isSome ↔
      ∃ d ∈ src, ¬ d.End < now ∧ d.SrcID = s := by
  rw [buildSrcMap, buildSrcMap0_lookup_isSome]
  simp [mapLookup]

theorem buildSrcMap0_lookup_self {now : Int} {d : Event} (src : List Event)
    (m : SrcMap)
    (hnd : ((src.filter (keep now)).map Event.SrcID).Nodup)
    (hd : d ∈ src) (hlive : ¬ d.End < now) :
    mapLookup (buildSrcMap0 now m src) d.SrcID = some d := by
  induction src generalizing m with
  | nil => cases hd
  | cons ev rest ih =>
    rw [buildSrcMap0]
    rcases List.mem_cons.mp hd with rfl | hd'
    · rw [if_neg hlive]
      have hkeep : keep now d = true := keep_eq_true.mpr hlive
      rw [List.filter_cons, if_pos hkeep, List.map_cons, List.nodup_cons] at hnd
      have habs : ∀ e ∈ rest, ¬ e.End < now → e.SrcID ≠ d.SrcID := by
        intro e he hel heq
        apply hnd.1
        rw [← heq]
        exact List.mem_map.mpr
          ⟨e, List.mem_filter.mpr ⟨he, keep_eq_true.mpr hel⟩, rfl⟩
      rw [buildSrcMap0_lookup_of_absent rest _ habs]
      exact mapLookup_insert_self m _ _
    · have hnd' : ((rest.filter (keep now)).map Event.SrcID).Nodup := by
        rw [List.filter_cons] at hnd
        by_cases hk : keep now ev = true
        · rw [if_pos hk, List.map_cons, List.nodup_cons] at hnd
          exact hnd.2
        · rwa [if_neg hk] at hnd
      by_cases he : ev.End < now
      · rw [if_pos he]
        exact ih _ hnd' hd'
      · rw [if_neg he]
        exact ih _ hnd' hd'

theorem buildSrcMap_lookup_self {now : Int} {d : Event} (src : List Event)
    (hnd : ((src.filter (keep now)).map Event.SrcID).Nodup)
    (hd : d ∈ src) (hlive : ¬ d.End < now) :
    mapLookup (buildSrcMap now src) d.SrcID = some d :=
  buildSrcMap0_lookup_self src [] hnd hd hlive

/-! Lemmas about the reconciliation loop. -/

theorem processCal_eq_full (m : SrcMap) (cal : List Event) :
    processCal m cal =
      ((processCalFull m cal).dels,
       (processCalFull m cal).upds.map (fun p => p.1.newUpdate p.2),
       (processCalFull m cal).rem) := by
  induction cal generalizing m with
  | nil => rfl
  | cons calEv rest ih =>
    rw [processCal, processCalFull]
    cases h : mapLookup m calEv.SrcID with
    | none => simp [ih]
    | some srcEv =>
      by_cases he : srcEv.equal calEv = true
      · simp [he, ih]
      · simp [he, ih]

theorem getOperations_eq (now : Int) (cal src : List Event) :
    getOperations now cal src =
      { Deletes := (processCalFull (buildSrcMap now src) cal).dels
        Updates := (processCalFull (buildSrcMap now src) cal).upds.map
          (fun p => p.1.newUpdate p.2)
        Adds := (processCalFull (buildSrcMap now src) cal).rem.map Prod.snd } := by
  rw [getOperations, processCal_eq_full]

theorem mapLookup_erase_none {m : SrcMap} {s : List Char} (k : List Char)
    (h : mapLookup m s = none) : mapLookup (mapErase m k) s = none := by
  by_cases hk : k = s
  · subst hk
    exact mapLookup_erase_self m k
  · rw [mapLookup_erase_ne m hk]
    exact h

theorem processCalFull_cons_none {m : SrcMap} {calEv : Event}
    {rest : List Event} (h : mapLookup m calEv.SrcID = none) :
    processCalFull m (calEv :: rest) =
      { processCalFull m rest with
        dels := calEv :: (processCalFull m rest).dels } := by
  rw [processCalFull, h]

theorem processCalFull_cons_same {m : SrcMap} {calEv srcEv : Event}
    {rest : List Event} (h : mapLookup m calEv.SrcID = some srcEv)
    (he : srcEv.equal calEv = true) :
    processCalFull m (calEv :: rest) =
      { processCalFull (mapErase m calEv.SrcID) rest with
        same := (calEv, srcEv) ::
          (processCalFull (mapErase m calEv.SrcID) rest).same } := by
  rw [processCalFull, h]
  simp [he]

theorem processCalFull_cons_upd {m : SrcMap} {calEv srcEv : Event}
    {rest : List Event} (h : mapLookup m calEv.SrcID = some srcEv)
    (he : ¬ srcEv.equal calEv = true) :
    processCalFull m (calEv :: rest) =
      { processCalFull (mapErase m calEv.SrcID) rest with
        upds := (calEv, srcEv) ::
          (processCalFull (mapErase m calEv.SrcID) rest).upds } := by
  rw [processCalFull, h]
  simp [he]

theorem processCalFull_rem_mem {m : SrcMap} {cal : List Event} {p}
    (hp : p ∈ (processCalFull m cal).rem) : p ∈ m := by
  induction cal generalizing m with
  | nil => exact hp
  | cons calEv rest ih =>
    cases h : mapLookup m calEv.SrcID with
    | none =>
      rw [processCalFull_cons_none h] at hp
      exact ih hp
    | some srcEv =>
      by_cases he : srcEv.equal calEv = true
      · rw [processCalFull_cons_same h he] at hp
        exact (mapErase_sublist m calEv.SrcID).mem (ih hp)
      · rw [processCalFull_cons_upd h he] at hp
        exact (mapErase_sublist m calEv.SrcID).mem (ih hp)

theorem processCalFull_dels_mem {m : SrcMap} {cal : List Event} {e : Event}
    (hp : e ∈ (processCalFull m cal).dels) : e ∈ cal := by
  induction cal generalizing m with
  | nil => exact absurd hp (List.not_mem_nil e)
  | cons calEv rest ih =>
    cases h : mapLookup m calEv.SrcID with
    | none =>
      rw [processCalFull_cons_none h] at hp
      simp only [List.mem_cons] at hp
      rcases hp with h1 | h1
      · exact h1 ▸ List.mem_cons_self _ _
      · exact List.mem_cons_of_mem _ (ih h1)
    | some srcEv =>
      by_cases he : srcEv.equal calEv = true
      · rw [processCalFull_cons_same h he] at hp
        exact List.mem_cons_of_mem _ (ih hp)
      · rw [processCalFull_cons_upd h he] at hp
        exact List.mem_cons_of_mem _ (ih hp)

theorem processCalFull_upds_mem {m : SrcMap} {cal : List Event} {p}
    (hp : p ∈ (processCalFull m cal).upds) :
    p.1 ∈ cal ∧ mapLookup m p.1.SrcID ≠ none := by
  induction cal generalizing m with
  | nil => exact absurd hp (List.not_mem_nil p)
  | cons calEv rest ih =>
    cases h : mapLookup m calEv.SrcID with
    | none =>
      rw [processCalFull_cons_none h] at hp
      obtain ⟨h1, h2⟩ := ih hp
      exact ⟨List.mem_cons_of_mem _ h1, h2⟩
    | some srcEv =>
      by_cases he : srcEv.equal calEv = true
      · rw [processCalFull_cons_same h he] at hp
        obtain ⟨h1, h2⟩ := ih hp
        refine ⟨List.mem_cons_of_mem _ h1, ?_⟩
        intro hnone
        exact h2 (mapLookup_erase_none _ hnone)
      · rw [processCalFull_cons_upd h he] at hp
        simp only [List.mem_cons] at hp
        rcases hp with h1 | h1
        · refine ⟨h1 ▸ List.mem_cons_self _ _, ?_⟩
          rw [h1]
          simp [h]
        · obtain ⟨h2, h3⟩ := ih h1
          refine ⟨List.mem_cons_of_mem _ h2, ?_⟩
          intro hnone
          exact h3 (mapLookup_erase_none _ hnone)

theorem processCalFull_pairs {m : SrcMap} {cal : List Event}
    (hok : mapOK m) :
    (∀ p ∈ (processCalFull m cal).upds, p.2.SrcID = p.1.SrcID) ∧
    (∀ p ∈ (processCalFull m cal).same, p.2.SrcID = p.1.SrcID) := by
  induction cal generalizing m with
  | nil =>
    exact ⟨fun p hp => absurd hp (List.not_mem_nil p),
      fun p hp => absurd hp (List.not_mem_nil p)⟩
  | cons calEv rest ih =>
    cases h : mapLookup m calEv.SrcID with
    | none =>
      rw [processCalFull_cons_none h]
      exact ih hok
    | some srcEv =>
      have hsrc : srcEv.SrcID = calEv.SrcID :=
        hok.2 (calEv.SrcID, srcEv) (mapLookup_mem h)
      have hok' := mapOK_erase calEv.SrcID hok
      obtain ⟨ihu, ihs⟩ := ih (m := mapErase m calEv.SrcID) hok'
      by_cases he : srcEv.equal calEv = true
      · rw [processCalFull_cons_same h he]
        refine ⟨ihu, ?_⟩
        intro p hp
        simp only [List.mem_cons] at hp
        rcases hp with h1 | h1
        · rw [h1]
          exact hsrc
        · exact ihs p h1
      · rw [processCalFull_cons_upd h he]
        refine ⟨?_, ihs⟩
        intro p hp
        simp only [List.mem_cons] at hp
        rcases hp with h1 | h1
        · rw [h1]
          exact hsrc
        · exact ihu p h1

theorem processCalFull_absent {s : List Char} {m : SrcMap} (cal : List Event)
    (h : mapLookup m s = none) :
    (processCalFull m cal).dels.filter (fun e => e.SrcID = s) =
        cal.filter (fun e => e.SrcID = s) ∧
    (∀ p ∈ (processCalFull m cal).upds, p.1.SrcID ≠ s) ∧
    (∀ p ∈ (processCalFull m cal).same, p.1.SrcID ≠ s) ∧
    mapLookup (processCalFull m cal).rem s = none := by
  induction cal generalizing m with
  | nil =>
    exact ⟨rfl, fun p hp => absurd hp (List.not_mem_nil p),
      fun p hp => absurd hp (List.not_mem_nil p), h⟩
  | cons calEv rest ih =>
    cases hl : mapLookup m calEv.SrcID with
    | none =>
      obtain ⟨ihd, ihu, ihs, ihr⟩ := ih h
      rw [processCalFull_cons_none hl]
      refine ⟨?_, ihu, ihs, ihr⟩
      rw [List.filter_cons, List.filter_cons, ihd]
    | some srcEv =>
      have hne : calEv.SrcID ≠ s := by
        intro heq
        rw [heq, h] at hl
        exact Option.noConfusion hl
      have h' : mapLookup (mapErase m calEv.SrcID) s = none :=
        mapLookup_erase_none _ h
      obtain ⟨ihd, ihu, ihs, ihr⟩ := ih h'
      by_cases he : srcEv.equal calEv = true
      · rw [processCalFull_cons_same hl he]
        refine ⟨?_, ihu, ?_, ihr⟩
        · rw [List.filter_cons, if_neg (by simpa using hne), ihd]
        · intro p hp
          rcases List.mem_cons.mp hp with h1 | h1
          · rw [h1]
            exact hne
          · exact ihs p h1
      · rw [processCalFull_cons_upd hl he]
        refine ⟨?_, ?_, ihs, ihr⟩
        · rw [List.filter_cons, if_neg (by simpa using hne), ihd]
        · intro p hp
          rcases List.mem_cons.mp hp with h1 | h1
          · rw [h1]
            exact hne
          · exact ihu p h1

theorem processCalFull_present_not_found {s : List Char} {m : SrcMap}
    {d : Event} {cal : List Event} (h : mapLookup m s = some d)
    (hf : cal.find? (fun e => e.SrcID = s) = none) :
    (processCalFull m cal).dels.filter (fun e => e.SrcID = s) = [] ∧
    (∀ p ∈ (processCalFull m cal).upds, p.1.SrcID ≠ s) ∧
    (∀ p ∈ (processCalFull m cal).same, p.1.SrcID ≠ s) ∧
    mapLookup (processCalFull m cal).rem s = some d := by
  induction cal generalizing m with
  | nil =>
    exact ⟨rfl, fun p hp => absurd hp (List.not_mem_nil p),
      fun p hp => absurd hp (List.not_mem_nil p), h⟩
  | cons calEv rest ih =>
    have hpred : ¬ ((fun e : Event => decide (e.SrcID = s)) calEv = true) := by
      intro hp
      rw [List.find?_cons_of_pos rest hp] at hf
      exact Option.noConfusion hf
    have hne : calEv.SrcID ≠ s := by simpa using hpred
    have hf' : rest.find? (fun e => e.SrcID = s) = none := by
      rwa [List.find?_cons_of_neg rest hpred] at hf
    cases hl : mapLookup m calEv.SrcID with
    | none =>
      obtain ⟨ihd, ihu, ihs, ihr⟩ := ih h hf'
      rw [processCalFull_cons_none hl]
      refine ⟨?_, ihu, ihs, ihr⟩
      rw [List.filter_cons, if_neg (by simpa using hne), ihd]
    | some srcEv =>
      have h' : mapLookup (mapErase m calEv.SrcID) s = some d := by
        rw [mapLookup_erase_ne m hne]
        exact h
      obtain ⟨ihd, ihu, ihs, ihr⟩ := ih h' hf'
      by_cases he : srcEv.equal calEv = true
      · rw [processCalFull_cons_same hl he]
        refine ⟨ihd, ihu, ?_, ihr⟩
        intro p hp
        rcases List.mem_cons.mp hp with h1 | h1
        · rw [h1]
          exact hne
        · exact ihs p h1
      · rw [processCalFull_cons_upd hl he]
        refine ⟨ihd, ?_, ihs, ihr⟩
        intro p hp
        rcases List.mem_cons.mp hp with h1 | h1
        · rw [h1]
          exact hne
        · exact ihu p h1

theorem processCalFull_present_found {s : List Char} {m : SrcMap}
    {d r : Event} {cal : List Event} (hok : mapOK m)
    (h : mapLookup m s = some d)
    (hf : cal.find? (fun e => e.SrcID = s) = some r) :
    (processCalFull m cal).dels.filter (fun e => e.SrcID = s) =
      (cal.filter (fun e => e.SrcID = s)).tail ∧
    (cal.filter (fun e => e.SrcID = s)).head? = some r ∧
    (if d.equal r = true then
      (processCalFull m cal).same.filter (fun p => p.1.SrcID = s) = [(r, d)] ∧
      (processCalFull m cal).upds.filter (fun p => p.1.SrcID = s) = []
    else
      (processCalFull m cal).upds.filter (fun p => p.1.SrcID = s) = [(r, d)] ∧
      (processCalFull m cal).same.filter (fun p => p.1.SrcID = s) = []) ∧
    mapLookup (processCalFull m cal).rem s = none := by
  induction cal generalizing m with
  | nil => exact Option.noConfusion hf
  | cons calEv rest ih =>
    by_cases hp : calEv.SrcID = s
    · have hr : r = calEv := by
        rw [List.find?_cons_of_pos rest (by simpa using hp)] at hf
        injection hf with h1
        exact h1.symm
      subst hr
      have hl : mapLookup m r.SrcID = some d := by
        rw [hp]
        exact h
      have h' : mapLookup (mapErase m r.SrcID) s = none := by
        rw [hp]
        exact mapLookup_erase_self m s
      obtain ⟨ad, au, as0, ar⟩ := processCalFull_absent rest h'
      have hcons : (r :: rest).filter (fun e => e.SrcID = s) =
          r :: rest.filter (fun e => e.SrcID = s) := by
        rw [List.filter_cons, if_pos (by simpa using hp)]
      by_cases he : d.equal r = true
      · rw [processCalFull_cons_same hl he]
        refine ⟨?_, ?_, ?_, ar⟩
        · rw [hcons, List.tail_cons]
          exact ad
        · rw [hcons]
          rfl
        · rw [if_pos he]
          constructor
          · rw [List.filter_cons, if_pos (by simpa using hp)]
            have hnil : (processCalFull (mapErase m r.SrcID) rest).same.filter
                (fun p => p.1.SrcID = s) = [] :=
              List.filter_eq_nil_iff.mpr (fun p hp0 => by simpa using as0 p hp0)
            rw [hnil]
          · exact List.filter_eq_nil_iff.mpr (fun p hp0 => by simpa using au p hp0)
      · rw [processCalFull_cons_upd hl he]
        refine ⟨?_, ?_, ?_, ar⟩
        · rw [hcons, List.tail_cons]
          exact ad
        · rw [hcons]
          rfl
        · rw [if_neg he]
          constructor
          · rw [List.filter_cons, if_pos (by simpa using hp)]
            have hnil : (processCalFull (mapErase m r.SrcID) rest).upds.filter
                (fun p => p.1.SrcID = s) = [] :=
              List.filter_eq_nil_iff.mpr (fun p hp0 => by simpa using au p hp0)
            rw [hnil]
          · exact List.filter_eq_nil_iff.mpr (fun p hp0 => by simpa using as0 p hp0)
    · have hf' : rest.find? (fun e => e.SrcID = s) = some r := by
        rwa [List.find?_cons_of_neg rest (by simpa using hp)] at hf
      have hcons : (calEv :: rest).filter (fun e => e.SrcID = s) =
          rest.filter (fun e => e.SrcID = s) := by
        rw [List.filter_cons, if_neg (by simpa using hp)]
      cases hl : mapLookup m calEv.SrcID with
      | none =>
        obtain ⟨ihd, ihh, ihif, ihr⟩ := ih hok h hf'
        rw [processCalFull_cons_none hl]
        refine ⟨?_, ?_, ihif, ihr⟩
        · rw [hcons, List.filter_cons, if_neg (by simpa using hp), ihd]
        · rw [hcons]
          exact ihh
      | some srcEv =>
        have h' : mapLookup (mapErase m calEv.SrcID) s = some d := by
          rw [mapLookup_erase_ne m hp]
          exact h
        have hok' := mapOK_erase calEv.SrcID hok
        obtain ⟨ihd, ihh, ihif, ihr⟩ := ih hok' h' hf'
        by_cases he : srcEv.equal calEv = true
        · rw [processCalFull_cons_same hl he]
          refine ⟨by rw [hcons]; exact ihd, by rw [hcons]; exact ihh, ?_, ihr⟩
          by_cases hd : d.equal r = true
          · rw [if_pos hd] at ihif ⊢
            refine ⟨?_, ihif.2⟩
            rw [List.filter_cons, if_neg (by simpa using hp)]
            exact ihif.1
          · rw [if_neg hd] at ihif ⊢
            refine ⟨ihif.1, ?_⟩
            rw [List.filter_cons, if_neg (by simpa using hp)]
            exact ihif.2
        · rw [processCalFull_cons_upd hl he]
          refine ⟨by rw [hcons]; exact ihd, by rw [hcons]; exact ihh, ?_, ihr⟩
          by_cases hd : d.equal r = true
          · rw [if_pos hd] at ihif ⊢
            refine ⟨ihif.1, ?_⟩
            rw [List.filter_cons, if_neg (by simpa using hp)]
            exact ihif.2
          · rw [if_neg hd] at ihif ⊢
            refine ⟨?_, ihif.2⟩
            rw [List.filter_cons, if_neg (by simpa using hp)]
            exact ihif.1

theorem processCalFull_cal_partition (m : SrcMap) (cal : List Event) :
    (↑cal : Multiset Event) =
      ↑(processCalFull m cal).dels +
      ↑((processCalFull m cal).same.map Prod.fst) +
      ↑((processCalFull m cal).upds.map Prod.fst) := by
  induction cal generalizing m with
  | nil => rfl
  | cons calEv rest ih =>
    cases h : mapLookup m calEv.SrcID with
    | none =>
      rw [processCalFull_cons_none h]
      have := ih (m := m)
      simp only [← Multiset.cons_coe, Multiset.cons_add]
      rw [this]
    | some srcEv =>
      by_cases he : srcEv.equal calEv = true
      · rw [processCalFull_cons_same h he]
        have := ih (m := mapErase m calEv.SrcID)
        simp only [List.map_cons, ← Multiset.cons_coe, Multiset.cons_add,
          Multiset.add_cons]
        rw [this]
      · rw [processCalFull_cons_upd h he]
        have := ih (m := mapErase m calEv.SrcID)
        simp only [List.map_cons, ← Multiset.cons_coe, Multiset.cons_add,
          Multiset.add_cons]
        rw [this]

theorem processCalFull_src_partition {m : SrcMap} (cal : List Event)
    (hok : mapOK m) :
    (↑(m.map Prod.snd) : Multiset Event) =
      ↑((processCalFull m cal).same.map Prod.snd) +
      ↑((processCalFull m cal).upds.map Prod.snd) +
      ↑((processCalFull m cal).rem.map Prod.snd) := by
  induction cal generalizing m with
  | nil => simp [processCalFull]
  | cons calEv rest ih =>
    cases h : mapLookup m calEv.SrcID with
    | none =>
      rw [processCalFull_cons_none h]
      exact ih hok
    | some srcEv =>
      have hv := values_erase hok h
      have hok' := mapOK_erase calEv.SrcID hok
      by_cases he : srcEv.equal calEv = true
      · rw [processCalFull_cons_same h he]
        rw [hv, ih hok']
        simp only [List.map_cons, ← Multiset.cons_coe, Multiset.cons_add,
          Multiset.add_cons]
      · rw [processCalFull_cons_upd h he]
        rw [hv, ih hok']
        simp only [List.map_cons, ← Multiset.cons_coe, Multiset.cons_add,
          Multiset.add_cons]

theorem buildSrcMap0_values (now : Int) (src : List Event) (m : SrcMap)
    (hok : mapOK m)
    (hnd : (m.map Prod.fst ++ (src.filter (keep now)).map Event.SrcID).Nodup) :
    (↑((buildSrcMap0 now m src).map Prod.snd) : Multiset Event) =
      ↑(m.map Prod.snd) + ↑(src.filter (keep now)) := by
  induction src generalizing m with
  | nil =>
    rw [buildSrcMap0]
    simp
  | cons ev rest ih =>
    rw [buildSrcMap0]
    by_cases he : ev.End < now
    · have hk : keep now ev = false := by simp [keep, he]
      rw [if_pos he]
      rw [List.filter_cons, hk] at hnd ⊢
      simp only [Bool.false_eq_true, if_false] at hnd ⊢
      exact ih m hok hnd
    · have hk : keep now ev = true := keep_eq_true.mpr he
      rw [if_neg he]
      rw [List.filter_cons, hk] at hnd ⊢
      simp only [if_true] at hnd ⊢
      have hfresh : ev.SrcID ∉ m.map Prod.fst := by
        rw [List.nodup_append] at hnd
        intro hmem
        exact hnd.2.2 hmem (by simp)
      have hins := mapInsert_of_not_mem (m := m) ev hfresh
      have hok' : mapOK (mapInsert m ev.SrcID ev) := mapOK_insert hok rfl
      have hnd' : ((mapInsert m ev.SrcID ev).map Prod.fst ++
          (rest.filter (keep now)).map Event.SrcID).Nodup := by
        rw [hins, List.map_append, List.append_assoc]
        simpa using hnd
      have hrec := ih (mapInsert m ev.SrcID ev) hok' hnd'
      rw [hrec, hins]
      simp only [List.map_append, List.map_cons, List.map_nil]
      rw [← Multiset.coe_add]
      have hsing : (↑([ev] : List Event) + ↑(rest.filter (keep now)) :
          Multiset Event) = ↑(ev :: rest.filter (keep now)) := by
        rw [Multiset.coe_add]
        rfl
      rw [add_assoc, hsing]

theorem equal_iff (ev other : Event) :
    Event.equal ev other = true ↔
      (ev.Title = other.Title ∧ ev.Start = other.Start ∧ ev.End = other.End ∧
       ev.Where = other.Where ∧
       (parseDescription ev.Description).suf =
         (parseDescription other.Description).suf ∧
       ev.SrcID = other.SrcID) := by
  unfold Event.equal
  split_ifs with h1 h2 h3 h4 h5 h6 <;> simp_all

theorem find?_eq_of_nodup {cal : List Event} {r : Event}
    (hnd : (cal.map Event.SrcID).Nodup) (hr : r ∈ cal) :
    cal.find? (fun e => e.SrcID = r.SrcID) = some r := by
  induction cal with
  | nil => cases hr
  | cons e rest ih =>
    rcases List.mem_cons.mp hr with rfl | hr'
    · exact List.find?_cons_of_pos _ (by simp)
    · rw [List.map_cons, List.nodup_cons] at hnd
      have hne : e.SrcID ≠ r.SrcID := by
        intro heq
        exact hnd.1 (heq ▸ List.mem_map.mpr ⟨r, hr', rfl⟩)
      rw [List.find?_cons_of_neg _ (by simpa using hne)]
      exact ih hnd.2 hr'

theorem newUpdate_fields (ev srcEv : Event) :
    (Event.newUpdate ev srcEv).Title = srcEv.Title ∧
    (Event.newUpdate ev srcEv).Start = srcEv.Start ∧
    (Event.newUpdate ev srcEv).End = srcEv.End ∧
    (Event.newUpdate ev srcEv).Where = srcEv.Where ∧
    (Event.newUpdate ev srcEv).SrcID = srcEv.SrcID ∧
    (Event.newUpdate ev srcEv).calEventID = ev.calEventID ∧
    (Event.newUpdate ev srcEv).Description =
      description.String { pre := (parseDescription ev.Description).pre,
                           suf := srcEv.Description } :=
  ⟨rfl, rfl, rfl, rfl, rfl, rfl, rfl⟩

theorem updates_filter (m : SrcMap) (cal : List Event) (s : List Char)
    (hok : mapOK m) :
    ((processCalFull m cal).upds.map (fun p => p.1.newUpdate p.2)).filter
        (fun u => u.SrcID = s) =
      ((processCalFull m cal).upds.filter (fun p => p.1.SrcID = s)).map
        (fun p => p.1.newUpdate p.2) := by
  rw [List.filter_map]
  congr 1
  apply List.filter_congr
  intro p hp
  have h2 := (processCalFull_pairs hok).1 p hp
  have h3 : (p.1.newUpdate p.2).SrcID = p.2.SrcID := rfl
  simp only [Function.comp_apply, h3, h2]

theorem filter_srcid_tail_nil {cal : List Event} {s : List Char}
    (hnd : (cal.map Event.SrcID).Nodup) :
    (cal.filter (fun e => e.SrcID = s)).tail = [] := by
  induction cal with
  | nil => rfl
  | cons e rest ih =>
    rw [List.map_cons, List.nodup_cons] at hnd
    rw [List.filter_cons]
    by_cases hp : e.SrcID = s
    · rw [if_pos (by simpa using hp), List.tail_cons]
      apply List.filter_eq_nil_iff.mpr
      intro a ha
      simp only [decide_eq_true_eq]
      intro has
      exact hnd.1 (List.mem_map.mpr ⟨a, ha, by rw [has, hp]⟩)
    · rw [if_neg (by simpa using hp)]
      exact ih hnd.2

/-! Claim theorems. -/

/-- C2: the equality test used by the reconciler returns true iff title,
start, end, location and sourceID are identical and the managed portions
(`suf`) of the two parsed descriptions agree; consequently a difference
confined to the annotation portion never makes two events unequal, a
difference in the managed portion always does, and the remote identity
`calEventID` plays no role in the comparison. -/
theorem C2_equal_policy (ev other : Event) :
    (Event.equal ev other = true ↔
      (ev.Title = other.Title ∧ ev.Start = other.Start ∧ ev.End = other.End ∧
       ev.Where = other.Where ∧ ev.SrcID = other.SrcID ∧
       (parseDescription ev.Description).suf =
         (parseDescription other.Description).suf)) ∧
    (∀ a b : List Char,
      Event.equal { ev with calEventID := a } { other with calEventID := b } =
        Event.equal ev other) := by
  constructor
  · rw [equal_iff]
    tauto
  · intro a b
    rfl

/-- C3: round-trip of the annotation codec: for every annotation `a` with
no embedded delimiter and every managed text `m`, parsing the
serialization of `{pre := a, suf := m}` yields exactly that description. -/
theorem C3_roundtrip (a m : List Char) (h : ¬ delim <:+: a) :
    parseDescription (description.String { pre := a, suf := m }) =
      { pre := a, suf := m } :=
  parse_string a m h

theorem C3_roundtrip_witness :
    ¬ delim <:+: "human note".toList ∧
    parseDescription (description.String
      { pre := "human note".toList, suf := "new body".toList }) =
      { pre := "human note".toList, suf := "new body".toList } :=
  ⟨by decide, C3_roundtrip "human note".toList "new body".toList (by decide)⟩

/-- C7: fallback parsing: any string with no occurrence of the delimiter
parses to an empty annotation with the whole string as managed text. -/
theorem C7_fallback (s : List Char) (h : ¬ delim <:+: s) :
    parseDescription s = { pre := [], suf := s } :=
  parse_of_no_delim h

theorem C7_fallback_witness :
    ¬ delim <:+: "plain text".toList ∧
    parseDescription "plain text".toList =
      { pre := [], suf := "plain text".toList } :=
  ⟨by decide, C7_fallback "plain text".toList (by decide)⟩

/-- C8: idempotent export: exporting an event whose description is already
an exported description leaves the description unchanged, i.e. applying
`exportedDescription` twice gives the same string as applying it once. -/
theorem C8_export_idempotent (ev : Event) :
    ({ ev with Description := ev.exportedDescription } : Event).exportedDescription
      = ev.exportedDescription := by
  unfold Event.exportedDescription
  exact congrArg description.String (parse_string_parse ev.Description)

/-- C9: delimiter presence on every write: the serializer always emits the
delimiter line, hence `exportedDescription` always contains it, and the
wire event built by `makeCalEvent` — the single constructor used by both
the add and the update write paths — carries exactly
`exportedDescription`'s output as its description. -/
theorem C9_delim_on_write (pk : List Char) (ev : Event) (d : description) :
    delim <:+: d.String ∧
    delim <:+: ev.exportedDescription ∧
    (makeCalEvent pk ev).Description = ev.exportedDescription :=
  ⟨delim_infix_string d, delim_infix_string (parseDescription ev.Description),
    rfl⟩

/-- C10: duplicate sourceID among remote events: when the lookup map holds
an entry `d` for sourceID `s` and `r` is the first remote event carrying
`s`, every later remote event with sourceID `s` is emitted as a delete
(the deletes with sourceID `s` are exactly the tail of the remotes with
sourceID `s`), and `r` alone is matched against `d` — yielding no
operation when they compare equal and exactly the single update
`r.newUpdate d` otherwise. -/
theorem C10_duplicate_remotes (now : Int) (cal src : List Event)
    (s : List Char) (d r : Event)
    (hl : mapLookup (buildSrcMap now src) s = some d)
    (hf : cal.find? (fun e => e.SrcID = s) = some r) :
    (getOperations now cal src).Deletes.filter (fun e => e.SrcID = s) =
      (cal.filter (fun e => e.SrcID = s)).tail ∧
    (cal.filter (fun e => e.SrcID = s)).head? = some r ∧
    (if d.equal r = true then
      (getOperations now cal src).Updates.filter (fun u => u.SrcID = s) = []
    else
      (getOperations now cal src).Updates.filter (fun u => u.SrcID = s) =
        [r.newUpdate d]) := by
  have hok := buildSrcMap_mapOK now src
  obtain ⟨hd, hh, hif, _⟩ := processCalFull_present_found hok hl hf
  rw [getOperations_eq]
  refine ⟨hd, hh, ?_⟩
  by_cases he : d.equal r = true
  · rw [if_pos he] at hif ⊢
    rw [updates_filter _ _ _ hok, hif.2]
    rfl
  · rw [if_neg he] at hif ⊢
    rw [updates_filter _ _ _ hok, hif.1]
    rfl

theorem C10_duplicate_remotes_witness :
    (getOperations 0
        [⟨['r'], 0, 1, [], ['c'], ['a'], ['1']⟩,
         ⟨['q'], 0, 1, [], ['c'], ['a'], ['2']⟩]
        [⟨['d'], 0, 1, [], ['b'], ['a'], []⟩]).Deletes.filter
      (fun e => e.SrcID = ['a']) =
      [⟨['q'], 0, 1, [], ['c'], ['a'], ['2']⟩] ∧
    (getOperations 0
        [⟨['r'], 0, 1, [], ['c'], ['a'], ['1']⟩,
         ⟨['q'], 0, 1, [], ['c'], ['a'], ['2']⟩]
        [⟨['d'], 0, 1, [], ['b'], ['a'], []⟩]).Updates.filter
      (fun u => u.SrcID = ['a']) =
      [Event.newUpdate ⟨['r'], 0, 1, [], ['c'], ['a'], ['1']⟩
        ⟨['d'], 0, 1, [], ['b'], ['a'], []⟩] := by
  have h := C10_duplicate_remotes 0
    [⟨['r'], 0, 1, [], ['c'], ['a'], ['1']⟩,
     ⟨['q'], 0, 1, [], ['c'], ['a'], ['2']⟩]
    [⟨['d'], 0, 1, [], ['b'], ['a'], []⟩]
    ['a'] ⟨['d'], 0, 1, [], ['b'], ['a'], []⟩
    ⟨['r'], 0, 1, [], ['c'], ['a'], ['1']⟩ (by decide) (by decide)
  constructor
  · rw [h.1]
    decide
  · have h3 := h.2.2
    rw [if_neg (by decide)] at h3
    exact h3

/-- C1: annotation-preserving update: when remote `r` and non-expired
desired `d` share a sourceID, compare unequal under the equality policy,
and sourceIDs are unique within each list (the documented `SrcID`
uniqueness requirement of the data model), reconciliation produces
exactly one update for that sourceID, namely `r.newUpdate d`, whose
description serializes the annotation parsed from `r.Description`
followed by `d.Description` taken raw as the managed suffix, with all
other fields copied from `d` and the remote id copied from `r`. -/
theorem C1_update (now : Int) (cal src : List Event) (r d : Event)
    (hr : r ∈ cal) (hd : d ∈ src) (hlive : ¬ d.End < now)
    (hs : d.SrcID = r.SrcID)
    (hne : ¬ d.equal r = true)
    (hndc : (cal.map Event.SrcID).Nodup)
    (hnds : ((src.filter (keep now)).map Event.SrcID).Nodup) :
    (getOperations now cal src).Updates.filter
        (fun u => u.SrcID = r.SrcID) = [r.newUpdate d] ∧
    (r.newUpdate d).Description =
      description.String { pre := (parseDescription r.Description).pre,
                           suf := d.Description } ∧
    (r.newUpdate d).Title = d.Title ∧ (r.newUpdate d).Start = d.Start ∧
    (r.newUpdate d).End = d.End ∧ (r.newUpdate d).Where = d.Where ∧
    (r.newUpdate d).SrcID = d.SrcID ∧
    (r.newUpdate d).calEventID = r.calEventID := by
  have hok := buildSrcMap_mapOK now src
  have hl : mapLookup (buildSrcMap now src) r.SrcID = some d := by
    rw [← hs]
    exact buildSrcMap_lookup_self src hnds hd hlive
  have hf : cal.find? (fun e => e.SrcID = r.SrcID) = some r :=
    find?_eq_of_nodup hndc hr
  obtain ⟨_, _, hif, _⟩ := processCalFull_present_found hok hl hf
  rw [if_neg hne] at hif
  rw [getOperations_eq]
  refine ⟨?_, rfl, rfl, rfl, rfl, rfl, rfl, rfl⟩
  rw [updates_filter _ _ _ hok, hif.1]
  rfl

theorem C1_update_witness :
    (getOperations 0
        [⟨['t'], 0, 2, [], "human note\n".toList ++ delim ++ "\nold body".toList,
          ['x'], ['g']⟩]
        [⟨['t'], 0, 2, [], "new body".toList, ['x'], []⟩]).Updates.filter
      (fun u => u.SrcID = ['x']) =
      [Event.newUpdate
        ⟨['t'], 0, 2, [], "human note\n".toList ++ delim ++ "\nold body".toList,
          ['x'], ['g']⟩
        ⟨['t'], 0, 2, [], "new body".toList, ['x'], []⟩] ∧
    (Event.newUpdate
        ⟨['t'], 0, 2, [], "human note\n".toList ++ delim ++ "\nold body".toList,
          ['x'], ['g']⟩
        ⟨['t'], 0, 2, [], "new body".toList, ['x'], []⟩).Description =
      "human note\n".toList ++ delim ++ "\nnew body".toList := by
  have h := C1_update 0
    [⟨['t'], 0, 2, [], "human note\n".toList ++ delim ++ "\nold body".toList,
      ['x'], ['g']⟩]
    [⟨['t'], 0, 2, [], "new body".toList, ['x'], []⟩]
    ⟨['t'], 0, 2, [], "human note\n".toList ++ delim ++ "\nold body".toList,
      ['x'], ['g']⟩
    ⟨['t'], 0, 2, [], "new body".toList, ['x'], []⟩
    (by decide) (by decide) (by decide) (by decide) (by decide) (by decide)
    (by decide)
  exact ⟨h.1, by decide⟩

/-- C5 (amended): expiry filtering — a desired event is entered into the
sourceID lookup map (and hence eligible to be matched or added) iff its
end is NOT strictly before `now`; a desired event whose end is strictly
before `now` is never emitted as an add, and when every desired event
with sourceID `s` is expired, the deletes with sourceID `s` are exactly
the remote events with sourceID `s` (the expired desired event does not
block them). -/
theorem C5_expiry (now : Int) (cal src : List Event) (s : List Char)
    (d : Event) (hexp : d.End < now)
    (hall : ∀ e ∈ src, e.SrcID = s → e.End < now) :
    ((mapLookup (buildSrcMap now src) s).isSome ↔
      ∃ e ∈ src, ¬ e.End < now ∧ e.SrcID = s) ∧
    d ∉ (getOperations now cal src).Adds ∧
    (getOperations now cal src).Deletes.filter (fun e => e.SrcID = s) =
      cal.filter (fun e => e.SrcID = s) := by
  refine ⟨buildSrcMap_lookup_isSome src, ?_, ?_⟩
  · intro hmem
    rw [getOperations_eq] at hmem
    obtain ⟨p, hp, hpd⟩ := List.mem_map.mp hmem
    have h1 := processCalFull_rem_mem hp
    rcases mem_buildSrcMap0 (m := []) h1 with h2 | h2
    · exact absurd h2 (List.not_mem_nil p)
    · rw [hpd] at h2
      exact h2.2.1 hexp
  · have hnone : mapLookup (buildSrcMap now src) s = none := by
      rw [← Option.not_isSome_iff_eq_none, buildSrcMap_lookup_isSome]
      rintro ⟨e, he, hlive, hsid⟩
      exact hlive (hall e he hsid)
    obtain ⟨hd, _, _, _⟩ := processCalFull_absent cal hnone
    rw [getOperations_eq]
    exact hd

/-- C5 counterexample: the claim requires the end to be STRICTLY after
`now` for a desired event to be entered into the map and become an add;
at `now = 5`, a desired event whose end is exactly 5 — not strictly
after `now` — is nevertheless entered into the map and emitted as an
add. -/
theorem C5_counterexample :
    ¬ ((5 : Int) < (⟨[], 0, 5, [], [], ['a'], []⟩ : Event).End) ∧
    mapLookup (buildSrcMap 5 [⟨[], 0, 5, [], [], ['a'], []⟩]) ['a'] =
      some ⟨[], 0, 5, [], [], ['a'], []⟩ ∧
    (getOperations 5 [] [⟨[], 0, 5, [], [], ['a'], []⟩]).Adds =
      [⟨[], 0, 5, [], [], ['a'], []⟩] := by decide

theorem C5_expiry_witness :
    ((mapLookup (buildSrcMap 5 [⟨[], 0, 0, [], [], ['a'], []⟩]) ['a']).isSome ↔
      ∃ e ∈ [(⟨[], 0, 0, [], [], ['a'], []⟩ : Event)],
        ¬ e.End < 5 ∧ e.SrcID = ['a']) ∧
    (⟨[], 0, 0, [], [], ['a'], []⟩ : Event) ∉
      (getOperations 5 [⟨['r'], 0, 9, [], [], ['a'], ['1']⟩]
        [⟨[], 0, 0, [], [], ['a'], []⟩]).Adds ∧
    (getOperations 5 [⟨['r'], 0, 9, [], [], ['a'], ['1']⟩]
        [⟨[], 0, 0, [], [], ['a'], []⟩]).Deletes.filter
      (fun e => e.SrcID = ['a']) =
      [(⟨['r'], 0, 9, [], [], ['a'], ['1']⟩ : Event)].filter
        (fun e => e.SrcID = ['a']) :=
  C5_expiry 5 [⟨['r'], 0, 9, [], [], ['a'], ['1']⟩]
    [⟨[], 0, 0, [], [], ['a'], []⟩] ['a'] ⟨[], 0, 0, [], [], ['a'], []⟩
    (by decide) (by decide)

/-- C4 (amended): partition totality — counted with multiplicity, the
remote events split exactly into deletes, matched-equal (unchanged) and
updated occurrences; and, provided the non-expired desired events carry
pairwise-distinct sourceIDs (the documented `SrcID` uniqueness
requirement), the non-expired desired events split exactly into
matched-equal, updated and added occurrences.  The last two conjuncts
tie the instrumented loop to `getOperations`. -/
theorem C4_partition (now : Int) (cal src : List Event)
    (hnds : ((src.filter (keep now)).map Event.SrcID).Nodup) :
    ((↑cal : Multiset Event) =
      ↑(processCalFull (buildSrcMap now src) cal).dels +
      ↑((processCalFull (buildSrcMap now src) cal).same.map Prod.fst) +
      ↑((processCalFull (buildSrcMap now src) cal).upds.map Prod.fst)) ∧
    ((↑(src.filter (keep now)) : Multiset Event) =
      ↑((processCalFull (buildSrcMap now src) cal).same.map Prod.snd) +
      ↑((processCalFull (buildSrcMap now src) cal).upds.map Prod.snd) +
      ↑((getOperations now cal src).Adds)) ∧
    (getOperations now cal src).Deletes =
      (processCalFull (buildSrcMap now src) cal).dels ∧
    (getOperations now cal src).Updates =
      (processCalFull (buildSrcMap now src) cal).upds.map
        (fun p => p.1.newUpdate p.2) := by
  have hok := buildSrcMap_mapOK now src
  have hvals := buildSrcMap0_values now src [] mapOK_nil
    (by simpa using hnds)
  have h0 : (↑(src.filter (keep now)) : Multiset Event) =
      ↑((buildSrcMap now src).map Prod.snd) := by
    rw [buildSrcMap, hvals]
    simp
  rw [getOperations_eq]
  refine ⟨processCalFull_cal_partition _ cal, ?_, rfl, rfl⟩
  rw [h0]
  exact processCalFull_src_partition cal hok

/-- C4 counterexample: with two non-expired desired events sharing a
sourceID (remote set empty), the second overwrites the first in the
lookup map, so the first appears in none of unchanged, updates or adds —
the desired-side partition fails on this input, refuting the claim's
"for every input". -/
theorem C4_counterexample :
    ¬ ((↑([⟨['a'], 0, 1, [], [], ['x'], []⟩,
           ⟨['b'], 0, 1, [], [], ['x'], []⟩].filter (keep 0)) :
        Multiset Event) =
      ↑((processCalFull
          (buildSrcMap 0 [⟨['a'], 0, 1, [], [], ['x'], []⟩,
            ⟨['b'], 0, 1, [], [], ['x'], []⟩]) []).same.map Prod.snd) +
      ↑((processCalFull
          (buildSrcMap 0 [⟨['a'], 0, 1, [], [], ['x'], []⟩,
            ⟨['b'], 0, 1, [], [], ['x'], []⟩]) []).upds.map Prod.snd) +
      ↑((getOperations 0 [] [⟨['a'], 0, 1, [], [], ['x'], []⟩,
          ⟨['b'], 0, 1, [], [], ['x'], []⟩]).Adds)) := by decide

theorem C4_partition_witness :
    ((([(⟨['d'], 0, 1, [], [], ['b'], []⟩ : Event)]).filter
        (keep 0)).map Event.SrcID).Nodup ∧
    ((↑(([(⟨['d'], 0, 1, [], [], ['b'], []⟩ : Event)]).filter (keep 0)) :
        Multiset Event) =
      ↑((processCalFull (buildSrcMap 0 [⟨['d'], 0, 1, [], [], ['b'], []⟩])
          [⟨['r'], 0, 1, [], [], ['a'], ['1']⟩]).same.map Prod.snd) +
      ↑((processCalFull (buildSrcMap 0 [⟨['d'], 0, 1, [], [], ['b'], []⟩])
          [⟨['r'], 0, 1, [], [], ['a'], ['1']⟩]).upds.map Prod.snd) +
      ↑((getOperations 0 [⟨['r'], 0, 1, [], [], ['a'], ['1']⟩]
          [⟨['d'], 0, 1, [], [], ['b'], []⟩]).Adds)) :=
  ⟨by decide, (C4_partition 0 [⟨['r'], 0, 1, [], [], ['a'], ['1']⟩]
    [⟨['d'], 0, 1, [], [], ['b'], []⟩] (by decide)).2.1⟩

/-- C6 (amended): no-op stability — when every remote event has a desired
event equal to it under the equality policy and vice versa, every desired
event is non-expired, and sourceIDs are pairwise distinct within each
list, reconciliation yields empty deletes, updates and adds. -/
theorem C6_noop (now : Int) (cal src : List Event)
    (h1 : ∀ r ∈ cal, ∃ d ∈ src, Event.equal d r = true)
    (h2 : ∀ d ∈ src, ∃ r ∈ cal, Event.equal d r = true)
    (h3 : ∀ d ∈ src, ¬ d.End < now)
    (h4 : (cal.map Event.SrcID).Nodup)
    (h5 : (src.map Event.SrcID).Nodup) :
    getOperations now cal src = { Deletes := [], Updates := [], Adds := [] } := by
  have hfilter : src.filter (keep now) = src :=
    List.filter_eq_self.mpr (fun d hd => keep_eq_true.mpr (h3 d hd))
  have hnds : ((src.filter (keep now)).map Event.SrcID).Nodup := by
    rw [hfilter]
    exact h5
  have hok := buildSrcMap_mapOK now src
  have hdels : (processCalFull (buildSrcMap now src) cal).dels = [] := by
    rw [List.eq_nil_iff_forall_not_mem]
    intro e he
    have hecal := processCalFull_dels_mem he
    obtain ⟨d, hd, hde⟩ := h1 e hecal
    have hsid : d.SrcID = e.SrcID := ((equal_iff d e).mp hde).2.2.2.2.2
    have hl : mapLookup (buildSrcMap now src) e.SrcID = some d := by
      rw [← hsid]
      exact buildSrcMap_lookup_self src hnds hd (h3 d hd)
    have hf : cal.find? (fun x => x.SrcID = e.SrcID) = some e :=
      find?_eq_of_nodup h4 hecal
    obtain ⟨hdf, _, _, _⟩ := processCalFull_present_found hok hl hf
    have hmem : e ∈ (processCalFull (buildSrcMap now src) cal).dels.filter
        (fun x => x.SrcID = e.SrcID) :=
      List.mem_filter.mpr ⟨he, by simp⟩
    rw [hdf, filter_srcid_tail_nil h4] at hmem
    exact absurd hmem (List.not_mem_nil e)
  have hupds : (processCalFull (buildSrcMap now src) cal).upds = [] := by
    rw [List.eq_nil_iff_forall_not_mem]
    intro p hp
    have hpc : p.1 ∈ cal := (processCalFull_upds_mem hp).1
    obtain ⟨d, hd, hde⟩ := h1 p.1 hpc
    have hsid : d.SrcID = p.1.SrcID := ((equal_iff d p.1).mp hde).2.2.2.2.2
    have hl : mapLookup (buildSrcMap now src) p.1.SrcID = some d := by
      rw [← hsid]
      exact buildSrcMap_lookup_self src hnds hd (h3 d hd)
    have hf : cal.find? (fun x => x.SrcID = p.1.SrcID) = some p.1 :=
      find?_eq_of_nodup h4 hpc
    obtain ⟨_, _, hif, _⟩ := processCalFull_present_found hok hl hf
    rw [if_pos hde] at hif
    have hmem : p ∈ (processCalFull (buildSrcMap now src) cal).upds.filter
        (fun q => q.1.SrcID = p.1.SrcID) :=
      List.mem_filter.mpr ⟨hp, by simp⟩
    rw [hif.2] at hmem
    exact absurd hmem (List.not_mem_nil p)
  have hadds : (processCalFull (buildSrcMap now src) cal).rem = [] := by
    rw [List.eq_nil_iff_forall_not_mem]
    intro p hp
    have hpm := processCalFull_rem_mem hp
    rcases mem_buildSrcMap0 (m := []) hpm with hnil | hsrc0
    · exact absurd hnil (List.not_mem_nil p)
    · obtain ⟨hmemsrc, hlv, hsid⟩ := hsrc0
      obtain ⟨r, hrc, hre⟩ := h2 p.2 hmemsrc
      have hsid2 : p.2.SrcID = r.SrcID := ((equal_iff p.2 r).mp hre).2.2.2.2.2
      have hl : mapLookup (buildSrcMap now src) r.SrcID = some p.2 := by
        rw [← hsid2]
        exact buildSrcMap_lookup_self src hnds hmemsrc hlv
      have hf : cal.find? (fun x => x.SrcID = r.SrcID) = some r :=
        find?_eq_of_nodup h4 hrc
      obtain ⟨_, _, _, hrem⟩ := processCalFull_present_found hok hl hf
      have hsome : (mapLookup (processCalFull (buildSrcMap now src) cal).rem
          r.SrcID).isSome := by
        apply mapLookup_isSome_of_mem (v := p.2)
        have hpeq : p = (r.SrcID, p.2) := by
          obtain ⟨pk, pv⟩ := p
          simp only at hsid hsid2 ⊢
          rw [← hsid2, hsid]
        rw [← hpeq]
        exact hp
      rw [hrem] at hsome
      exact Bool.noConfusion hsome
  rw [getOperations_eq, hdels, hupds, hadds]
  rfl

/-- C6 counterexample: an expired event (end 0, `now = 10`) present
identically on both sides — so every remote event has a matching desired
event with the same title, start, end, location, sourceID and managed
description, and vice versa — is nevertheless deleted, because the
expired desired twin never enters the lookup map; the reconciliation is
not a no-op. -/
theorem C6_counterexample :
    (∀ r ∈ [(⟨['t'], 0, 0, [], ['x'], ['a'], ['g']⟩ : Event)],
      ∃ d ∈ [(⟨['t'], 0, 0, [], ['x'], ['a'], ['g']⟩ : Event)],
        Event.equal d r = true) ∧
    (∀ d ∈ [(⟨['t'], 0, 0, [], ['x'], ['a'], ['g']⟩ : Event)],
      ∃ r ∈ [(⟨['t'], 0, 0, [], ['x'], ['a'], ['g']⟩ : Event)],
        Event.equal d r = true) ∧
    (getOperations 10 [⟨['t'], 0, 0, [], ['x'], ['a'], ['g']⟩]
      [⟨['t'], 0, 0, [], ['x'], ['a'], ['g']⟩]).Deletes =
      [⟨['t'], 0, 0, [], ['x'], ['a'], ['g']⟩] := by decide

theorem C6_noop_witness :
    getOperations 0 [⟨['t'], 0, 1, [], ['x'], ['a'], ['g']⟩]
      [⟨['t'], 0, 1, [], ['x'], ['a'], ['g']⟩] =
      { Deletes := [], Updates := [], Adds := [] } :=
  C6_noop 0 [⟨['t'], 0, 1, [], ['x'], ['a'], ['g']⟩]
    [⟨['t'], 0, 1, [], ['x'], ['a'], ['g']⟩]
    (by decide) (by decide) (by decide) (by decide) (by decide)

end Calimporter
